import Mathlib

/-!
Shallow embedding of the limit order book implemented in `src/main.cpp`
(classes `Order`, `OrderModify`, `Trade`, `OrderBook`), together with
theorems settling the specification claims about it.

Modelling conventions:
* `std::map<Price, OrderList>` becomes an association list sorted by
  ascending price (the default `std::less` comparator of `std::map`);
  `begin()` is the head of the list, i.e. the LOWEST price, for both
  `bids` and `asks` — exactly as the C++ code behaves.
* `std::list<OrderPtr>` at a level becomes `List Order`, front = head.
* The `orders` directory (`std::unordered_map<OrderId, OrderEntry>`) is
  kept in sync with the two books by every operation of the C++ code, so
  it is modelled as derived data: membership of an order id is membership
  in one of the books, and the stored iterator is the unique list node
  holding the order with that id.
* `Order::Fill` throws when asked to fill more than the remaining
  quantity; it is modelled as an `Option`, `none` being the throw.
* The matching `while` loops terminate because every productive
  iteration removes at least one order from the books, so they are
  modelled with fuel; `OrderBook::MatchOrders` instantiates the fuel
  with `Size + 1`, which is more than enough.  A front level with an
  empty queue (impossible in any state the public interface can
  produce) makes the C++ inner loop spin forever; the model simply
  stops there.
-/

namespace OBook

inductive OrderType where
  | GoodTilCancel
  | FillAndKill
deriving DecidableEq, Repr

inductive Side where
  | Buy
  | Sell
deriving DecidableEq, Repr

abbrev Price := Int

abbrev Quantity := Nat

abbrev OrderId := Nat

/-- The `Order` class: type, id, side, limit price, initial and remaining
quantity. -/
structure Order where
  orderType : OrderType
  orderId : OrderId
  side : Side
  price : Price
  initialQuantity : Quantity
  remainingQuantity : Quantity
deriving DecidableEq, Repr

/-- The `Order` constructor: `remainingQuantity` starts equal to
`initialQuantity`. -/
def mkOrder (t : OrderType) (id : OrderId) (s : Side) (p : Price) (q : Quantity) : Order :=
  ⟨t, id, s, p, q, q⟩

/-- `Order::IsFilled`. -/
def Order.IsFilled (o : Order) : Bool := o.remainingQuantity == 0

/-- `Order::GetFilledQuantity`. -/
def Order.FilledQuantity (o : Order) : Quantity := o.initialQuantity - o.remainingQuantity

/-- `Order::Fill`: throws (here `none`) when the quantity exceeds the
remaining quantity, otherwise subtracts it. -/
def Order.Fill (o : Order) (q : Quantity) : Option Order :=
  if q > o.remainingQuantity then none
  else some { o with remainingQuantity := o.remainingQuantity - q }

/-- One price level: the FIFO queue of resting orders (front = head). -/
abbrev Level := List Order

/-- One side of the book: `std::map<Price, OrderList>` with the default
ascending comparator, as an association list sorted by ascending price. -/
abbrev OrderMap := List (Price × Level)

/-- `OrderBook::ProcessOrder` restricted to the map: `orderMap[price]`
finds or creates the level (at its sorted position) and `push_back`
appends the order at the tail of the queue. -/
def insertLevel (m : OrderMap) (p : Price) (o : Order) : OrderMap :=
  match m with
  | [] => [(p, [o])]
  | (q, l) :: rest =>
    if p < q then (p, [o]) :: (q, l) :: rest
    else if p = q then (q, l ++ [o]) :: rest
    else (q, l) :: insertLevel rest p o

/-- One leg of a trade: `struct TradeInfo`. -/
structure TradeInfo where
  orderId : OrderId
  price : Price
  quantity : Quantity
deriving DecidableEq, Repr

/-- A matched trade: `class Trade`, a bid leg and an ask leg. -/
structure Trade where
  bidTrade : TradeInfo
  askTrade : TradeInfo
deriving DecidableEq, Repr

/-- Result of the matching loop: the two books, the emitted trades, and
whether `Order::Fill` threw (the over-fill error). -/
structure LoopResult where
  bids : OrderMap
  asks : OrderMap
  trades : List Trade
  overfill : Bool
deriving DecidableEq, Repr

/-- The nested `while` loops of `OrderBook::MatchOrders`, flattened: the
outer loop re-reads `begin()` of both maps each round, and the inner
loop keeps matching the fronts of those two levels until one empties,
which is the same as re-entering the outer loop on an unchanged map.
`begin()` is the head of the ascending list — the lowest price on BOTH
sides.  Matching stops when `bids.begin()->first < asks.begin()->first`. -/
def matchLoop : Nat → OrderMap → OrderMap → List Trade → LoopResult
  | 0, bids, asks, trades => ⟨bids, asks, trades, false⟩
  | Nat.succ fuel, bids, asks, trades =>
    match bids, asks with
    | [], as => ⟨[], as, trades, false⟩
    | bs, [] => ⟨bs, [], trades, false⟩
    | (bp, bl) :: brest, (ap, al) :: arest =>
      if bp < ap then ⟨(bp, bl) :: brest, (ap, al) :: arest, trades, false⟩
      else
        match bl, al with
        | [], al' => ⟨(bp, []) :: brest, (ap, al') :: arest, trades, false⟩
        | bl', [] => ⟨(bp, bl') :: brest, (ap, []) :: arest, trades, false⟩
        | b :: btl, a :: atl =>
          let q := min b.remainingQuantity a.remainingQuantity
          match b.Fill q, a.Fill q with
          | some b2, some a2 =>
            let tr : Trade := ⟨⟨b.orderId, b.price, q⟩, ⟨a.orderId, a.price, q⟩⟩
            let bl2 := if b2.IsFilled then btl else b2 :: btl
            let al2 := if a2.IsFilled then atl else a2 :: atl
            let bids2 := if bl2.isEmpty then brest else (bp, bl2) :: brest
            let asks2 := if al2.isEmpty then arest else (ap, al2) :: arest
            matchLoop fuel bids2 asks2 (trades ++ [tr])
          | _, _ => ⟨(bp, b :: btl) :: brest, (ap, a :: atl) :: arest, trades, true⟩

/-- The post-loop FillAndKill cleanup of `OrderBook::MatchOrders` on one
level: if the FRONT order of the queue is FillAndKill it is cancelled
(removed from the queue, the level dropped if it becomes empty). -/
def cancelFAKLevel (pl : Price × Level) : Option (Price × Level) :=
  match pl with
  | (p, o :: rest) =>
    if o.orderType == OrderType.FillAndKill then
      match rest with
      | [] => none
      | r => some (p, r)
    else some (p, o :: rest)
  | (p, []) => some (p, [])

/-- The post-loop FillAndKill cleanup over a whole side. -/
def cancelFAKSide (m : OrderMap) : OrderMap := m.filterMap cancelFAKLevel

/-- The `OrderBook` state: the two price-indexed books.  The id
directory is derived (see the module docstring). -/
structure OrderBook where
  bids : OrderMap
  asks : OrderMap
deriving DecidableEq, Repr

/-- All orders resting on one side, in map-iteration order. -/
def levelOrders (m : OrderMap) : List Order := (m.map Prod.snd).flatten

/-- All orders resting in the book (the contents of the `orders`
directory), bids first. -/
def allOrders (b : OrderBook) : List Order := levelOrders b.bids ++ levelOrders b.asks

/-- `OrderBook::Size`: the number of entries of the order directory. -/
def OrderBook.Size (b : OrderBook) : Nat := (allOrders b).length

/-- `orders.find(id)` of the directory, as a search of the books. -/
def findOrder (b : OrderBook) (id : OrderId) : Option Order :=
  (allOrders b).find? (fun o => o.orderId == id)

/-- `orders.find(id) != orders.end()`. -/
def containsId (b : OrderBook) (id : OrderId) : Bool :=
  (allOrders b).any (fun o => o.orderId == id)

/-- `OrderBook::CanMatch`: compares against `asks.begin()` resp.
`bids.begin()`, i.e. the LOWEST price of either map. -/
def OrderBook.CanMatch (b : OrderBook) (s : Side) (p : Price) : Bool :=
  match s with
  | Side.Buy =>
    match b.asks with
    | [] => false
    | (q, _) :: _ => decide (p ≥ q)
  | Side.Sell =>
    match b.bids with
    | [] => false
    | (q, _) :: _ => decide (p ≤ q)

/-- `OrderBook::MatchOrders`: run the loop (fuel `Size + 1` is more than
the loop can consume), then, unless `Order::Fill` threw, run the
FillAndKill cleanup over every level front of both sides. -/
def OrderBook.MatchOrders (b : OrderBook) : OrderBook × List Trade × Bool :=
  let r := matchLoop (b.Size + 1) b.bids b.asks []
  if r.overfill then (⟨r.bids, r.asks⟩, r.trades, true)
  else (⟨cancelFAKSide r.bids, cancelFAKSide r.asks⟩, r.trades, false)

/-- `OrderBook::AddOrder`: reject duplicate ids; reject a FillAndKill
order that cannot match; otherwise insert at the tail of its price level
and run the matcher. -/
def OrderBook.AddOrder (b : OrderBook) (o : Order) : OrderBook × List Trade :=
  if containsId b o.orderId then (b, [])
  else if o.orderType == OrderType.FillAndKill && !(b.CanMatch o.side o.price) then (b, [])
  else
    let b1 : OrderBook :=
      match o.side with
      | Side.Buy => ⟨insertLevel b.bids o.price o, b.asks⟩
      | Side.Sell => ⟨b.bids, insertLevel b.asks o.price o⟩
    let r := b1.MatchOrders
    (r.1, r.2.1)

/-- `OrderBook::CancelOrder` restricted to one side: erase the list node
of the order with the given id at level `p` (the stored iterator), and
drop the level if its queue becomes empty. -/
def cancelInMap (m : OrderMap) (p : Price) (id : OrderId) : OrderMap :=
  match m with
  | [] => []
  | (q, l) :: rest =>
    if p = q then
      match l.eraseP (fun o => o.orderId == id) with
      | [] => rest
      | l2 => (q, l2) :: rest
    else (q, l) :: cancelInMap rest p id

/-- `OrderBook::CancelOrder`: unknown id is a no-op; otherwise remove
the order from its side at its price. -/
def OrderBook.CancelOrder (b : OrderBook) (id : OrderId) : OrderBook :=
  match findOrder b id with
  | none => b
  | some o =>
    match o.side with
    | Side.Buy => ⟨cancelInMap b.bids o.price id, b.asks⟩
    | Side.Sell => ⟨b.bids, cancelInMap b.asks o.price id⟩

/-- `class OrderModify`. -/
structure OrderModify where
  orderId : OrderId
  side : Side
  price : Price
  quantity : Quantity
deriving DecidableEq, Repr

/-- `OrderModify::ToOrderPtr`. -/
def OrderModify.ToOrder (m : OrderModify) (t : OrderType) : Order :=
  mkOrder t m.orderId m.side m.price m.quantity

/-- `OrderBook::ModifyOrder`: capture the old type, cancel, re-add. -/
def OrderBook.ModifyOrder (b : OrderBook) (m : OrderModify) : OrderBook × List Trade :=
  match findOrder b m.orderId with
  | none => (b, [])
  | some o => (b.CancelOrder m.orderId).AddOrder (m.ToOrder o.orderType)

/-- `struct LevelInfo`. -/
structure LevelInfo where
  price : Price
  quantity : Quantity
deriving DecidableEq, Repr

/-- Aggregate remaining quantity of one level queue. -/
def levelQuantity (l : Level) : Quantity := (l.map Order.remainingQuantity).sum

/-- One side of `OrderBook::GetOrderInfos`: iterate the map in its own
(ascending) order, summing remaining quantities per level. -/
def levelInfosOf (m : OrderMap) : List LevelInfo :=
  m.map (fun pl => ⟨pl.1, levelQuantity pl.2⟩)

/-- `OrderBook::GetOrderInfos` (a `const` method: it reads the books and
builds the two vectors). -/
def OrderBook.GetOrderInfos (b : OrderBook) : List LevelInfo × List LevelInfo :=
  (levelInfosOf b.bids, levelInfosOf b.asks)

/-- A public operation of the book. -/
inductive Op where
  | add (o : Order)
  | cancel (id : OrderId)
  | modify (m : OrderModify)
deriving DecidableEq, Repr

/-- Apply one public operation to the state. -/
def applyOp (b : OrderBook) : Op → OrderBook
  | Op.add o => (b.AddOrder o).1
  | Op.cancel id => b.CancelOrder id
  | Op.modify m => (b.ModifyOrder m).1

/-- The freshly constructed (empty) book. -/
def emptyBook : OrderBook := ⟨[], []⟩

/-- Run a sequence of public operations from the empty book: the
reachable states are exactly the values of `runOps`. -/
def runOps (ops : List Op) : OrderBook := ops.foldl applyOp emptyBook

/-- Highest resting buy price (the spec's best bid). -/
def bestBidPrice (b : OrderBook) : Option Price :=
  b.bids.foldr (fun pl acc =>
    match acc with
    | none => some pl.1
    | some q => some (max pl.1 q)) none

/-- Lowest resting sell price (the spec's best ask). -/
def bestAskPrice (b : OrderBook) : Option Price :=
  b.asks.foldr (fun pl acc =>
    match acc with
    | none => some pl.1
    | some q => some (min pl.1 q)) none

/-- The admission predicate as the spec words it (§4.3.1 step 2 together
with the glossary): `can_match(Buy, p)` = a best ask exists and `p` is at
least the LOWEST resting sell price; `can_match(Sell, p)` = a best bid
exists and `p` is at most the HIGHEST resting buy price.  It is compared
against the source's `OrderBook::CanMatch`. -/
def specCanMatch (b : OrderBook) (s : Side) (p : Price) : Bool :=
  match s with
  | Side.Buy =>
    match bestAskPrice b with
    | none => false
    | some q => decide (p ≥ q)
  | Side.Sell =>
    match bestBidPrice b with
    | none => false
    | some q => decide (p ≤ q)

/-!
Concrete traces of public operations used to settle the claims that
fail on the code.  All of them are sequences of `AddOrder` calls with
fresh ids and positive quantities, so they are accepted by the public
interface.
-/

/-- Trace: Buy 110×10 rests; Sell 100×5 trades 5 against it; Buy 90×5
rests; Sell 100×5 is NOT matched because `bids.begin()` is the lowest
bid (90 < 100), although the bid at 110 crosses it. -/
def c1ops : List Op :=
  [Op.add (mkOrder OrderType.GoodTilCancel 1 Side.Buy 110 10),
   Op.add (mkOrder OrderType.GoodTilCancel 2 Side.Sell 100 5),
   Op.add (mkOrder OrderType.GoodTilCancel 3 Side.Buy 90 5),
   Op.add (mkOrder OrderType.GoodTilCancel 4 Side.Sell 100 5)]

/-- Trace: two resting buy orders at prices 90 and 100. -/
def c2ops : List Op :=
  [Op.add (mkOrder OrderType.GoodTilCancel 1 Side.Buy 90 5),
   Op.add (mkOrder OrderType.GoodTilCancel 2 Side.Buy 100 7)]

/-- Trace reaching a state with resting bids at 90 and 110 and no asks. -/
def c3ops : List Op :=
  [Op.add (mkOrder OrderType.GoodTilCancel 1 Side.Buy 110 10),
   Op.add (mkOrder OrderType.GoodTilCancel 2 Side.Sell 100 5),
   Op.add (mkOrder OrderType.GoodTilCancel 3 Side.Buy 90 5)]

/-- Trace after which a FillAndKill order rests behind a GoodTilCancel
order at the crossed level 100. -/
def c4ops : List Op :=
  [Op.add (mkOrder OrderType.GoodTilCancel 1 Side.Buy 100 5),
   Op.add (mkOrder OrderType.GoodTilCancel 2 Side.Buy 90 5),
   Op.add (mkOrder OrderType.GoodTilCancel 3 Side.Sell 100 20),
   Op.add (mkOrder OrderType.FillAndKill 4 Side.Buy 100 10)]

/-- Trace: a single zero-quantity GoodTilCancel order. -/
def c5ops : List Op :=
  [Op.add (mkOrder OrderType.GoodTilCancel 1 Side.Buy 100 0)]

/-!
Theorems settling the claims.
-/

/-- C1: the claim says that after every public operation, whenever both
sides are non-empty the best bid (highest resting buy price) is strictly
below the best ask (lowest resting sell price).  The four `AddOrder`
calls of `c1ops` end in a state whose best bid is 110 and best ask is
100 with both sides non-empty — the book is crossed at rest, because
`bids` is a `std::map` with the default ascending comparator, so the
matching loop compares the LOWEST bid against the best ask. -/
theorem C1_crossed_book_at_rest :
    bestBidPrice (runOps c1ops) = some 110 ∧
    bestAskPrice (runOps c1ops) = some 100 ∧
    (runOps c1ops).bids ≠ [] ∧ (runOps c1ops).asks ≠ [] ∧
    ¬ ((110 : Price) < (100 : Price)) := by decide

/-- C2: the claim says `GetOrderInfos` lists bid levels from highest
price to lowest.  After `c2ops` (two resting bids at 90 and 100) the
code returns the bid levels as `[(90, 5), (100, 7)]` — lowest price
first — because the bid map iterates in ascending order.  The ask side
and the per-level quantity sums are as claimed. -/
theorem C2_snapshot_bids_lowest_first :
    (runOps c2ops).GetOrderInfos =
      ([⟨90, 5⟩, ⟨100, 7⟩], ([] : List LevelInfo)) ∧
    ¬ ((90 : Price) ≥ (100 : Price)) := by decide

/-- C3: the claim says a FillAndKill `AddOrder` returns an empty trade
list and leaves the book unchanged exactly when `can_match` is false,
with `can_match(Sell, p)` = a best bid exists and `p` is at most the
HIGHEST resting buy price.  After `c3ops` the bids rest at 90 and 110,
so `can_match(Sell, 100)` holds per the spec (100 ≤ 110), yet the code
rejects the order unchanged: `OrderBook::CanMatch` compares against
`bids.begin()`, the LOWEST bid (100 ≤ 90 fails). -/
theorem C3_fak_rejected_despite_spec_can_match :
    (runOps c3ops).AddOrder (mkOrder OrderType.FillAndKill 4 Side.Sell 100 1) =
      (runOps c3ops, []) ∧
    specCanMatch (runOps c3ops) Side.Sell 100 = true ∧
    (runOps c3ops).CanMatch Side.Sell 100 = false := by decide

/-- C4: the claim says no resting order has type FillAndKill after any
`AddOrder` returns.  After the four `AddOrder` calls of `c4ops`, the
FillAndKill order (id 4) rests with remaining quantity 10 behind the
GoodTilCancel order at bid level 100: the post-match cleanup inspects
only the FRONT of each level, and the crossed book (reachable because
of the ascending bid map) lets a FillAndKill order be admitted into a
level whose front is another order. -/
theorem C4_fak_rests_after_addorder :
    (allOrders (runOps c4ops)).any
        (fun o => o.orderType == OrderType.FillAndKill) = true ∧
    findOrder (runOps c4ops) 4 =
      some (Order.mk OrderType.FillAndKill 4 Side.Buy 100 10 10) := by decide

/-- C5 counterexample: the claim quantifies over every sequence of
operations accepted by the public interface, but `AddOrder` performs no
quantity validation: adding a GoodTilCancel buy of quantity 0 leaves an
order resting with `remaining_qty = 0`. -/
theorem C5_zero_quantity_order_rests :
    runOps c5ops =
      OrderBook.mk [((100 : Price),
        [Order.mk OrderType.GoodTilCancel 1 Side.Buy 100 0 0])] [] ∧
    (allOrders (runOps c5ops)).any (fun o => o.remainingQuantity == 0) = true := by
  decide

/-- C7: `OrderBook::ModifyOrder` is exactly capture-the-type, cancel,
re-add: if the id is absent it returns the unchanged book and an empty
trade list, otherwise it cancels the existing order and submits a fresh
order with the captured `OrderType` and the request's side, price and
quantity, returning whatever that reinsertion produces. -/
theorem C7_modify_is_cancel_then_add (b : OrderBook) (m : OrderModify) :
    b.ModifyOrder m =
      match findOrder b m.orderId with
      | none => (b, [])
      | some o => (b.CancelOrder m.orderId).AddOrder
          (mkOrder o.orderType m.orderId m.side m.price m.quantity) := rfl

/-- Auxiliary for C8: the matching loop never trips the over-fill check
of `Order::Fill`, whatever the books look like, because the fill
quantity is the minimum of the two front orders' remaining quantities. -/
theorem matchLoop_no_overfill (fuel : Nat) :
    ∀ (bids asks : OrderMap) (tr : List Trade),
      (matchLoop fuel bids asks tr).overfill = false := by
  induction fuel with
  | zero => intro bids asks tr; rfl
  | succ n ih =>
    intro bids asks tr
    rcases bids with _ | ⟨⟨bp, bl⟩, brest⟩
    · simp [matchLoop]
    rcases asks with _ | ⟨⟨ap, al⟩, arest⟩
    · simp [matchLoop]
    by_cases h : bp < ap
    · simp [matchLoop, h]
    rcases bl with _ | ⟨b, btl⟩
    · simp [matchLoop, h]
    rcases al with _ | ⟨a, atl⟩
    · simp [matchLoop, h]
    have h1 : ¬ (min b.remainingQuantity a.remainingQuantity > b.remainingQuantity) :=
      Nat.not_lt.mpr (Nat.min_le_left _ _)
    have h2 : ¬ (min b.remainingQuantity a.remainingQuantity > a.remainingQuantity) :=
      Nat.not_lt.mpr (Nat.min_le_right _ _)
    simp only [matchLoop, h, if_false, Order.Fill, h1, h2, ite_false]
    exact ih _ _ _

/-- C8: every `Order::Fill` call made during `OrderBook::MatchOrders`
passes the minimum of the two front orders' remaining quantities, so
the over-fill error branch (the `std::runtime_error` throw) is never
taken — for every book state, not only reachable ones. -/
theorem C8_overfill_branch_unreachable :
    (∀ (fuel : Nat) (bids asks : OrderMap) (tr : List Trade),
        (matchLoop fuel bids asks tr).overfill = false) ∧
    ∀ b : OrderBook, (b.MatchOrders).2.2 = false := by
  refine ⟨matchLoop_no_overfill, ?_⟩
  intro b
  simp [OrderBook.MatchOrders, matchLoop_no_overfill]

/-!
Positivity of remaining quantities (claim C5).
-/

/-- Every order of a level queue has positive remaining quantity. -/
def posLevel (l : Level) : Prop := ∀ o ∈ l, 0 < o.remainingQuantity

/-- Every order resting on one side has positive remaining quantity. -/
def posMap (m : OrderMap) : Prop := ∀ pl ∈ m, posLevel pl.2

/-- Every order resting in the book has positive remaining quantity. -/
def posBook (b : OrderBook) : Prop := posMap b.bids ∧ posMap b.asks

/-- An operation carries a valid (constructor-produced, positive)
quantity: `AddOrder` receives a freshly constructed order, and a
modify request carries a positive quantity. -/
def opValid : Op → Bool
  | Op.add o => o.remainingQuantity == o.initialQuantity && o.initialQuantity != 0
  | Op.cancel _ => true
  | Op.modify m => m.quantity != 0

theorem posLevel_nil : posLevel [] := fun _ hx => nomatch hx

theorem posLevel_cons {o : Order} {l : Level} (ho : 0 < o.remainingQuantity)
    (hl : posLevel l) : posLevel (o :: l) := by
  intro x hx
  rcases List.mem_cons.mp hx with h | h
  · exact h ▸ ho
  · exact hl x h

theorem posLevel_append {l l2 : Level} (h : posLevel l) (h2 : posLevel l2) :
    posLevel (l ++ l2) := by
  intro x hx
  rcases List.mem_append.mp hx with hh | hh
  · exact h x hh
  · exact h2 x hh

theorem posMap_nil : posMap [] := fun _ hpl => nomatch hpl

theorem posMap_cons {p : Price} {l : Level} {m : OrderMap} (hl : posLevel l)
    (hm : posMap m) : posMap ((p, l) :: m) := by
  intro pl hpl
  rcases List.mem_cons.mp hpl with h | h
  · subst h; exact hl
  · exact hm pl h

theorem posMap_insertLevel {m : OrderMap} {p : Price} {o : Order}
    (hm : posMap m) (ho : 0 < o.remainingQuantity) : posMap (insertLevel m p o) := by
  induction m with
  | nil => exact posMap_cons (posLevel_cons ho posLevel_nil) posMap_nil
  | cons hd tl ih =>
    obtain ⟨q, l⟩ := hd
    have hhd : posLevel l := hm _ (List.mem_cons_self _ _)
    have htl : posMap tl := fun pl hpl => hm _ (List.mem_cons_of_mem _ hpl)
    simp only [insertLevel]
    split
    · exact posMap_cons (posLevel_cons ho posLevel_nil) hm
    · split
      · exact posMap_cons (posLevel_append hhd (posLevel_cons ho posLevel_nil)) htl
      · exact posMap_cons hhd (ih htl)

theorem posLevel_keep {b2 : Order} {btl : Level} (h : posLevel btl) :
    posLevel (if b2.IsFilled then btl else b2 :: btl) := by
  by_cases hf : b2.IsFilled = true
  · rw [if_pos hf]; exact h
  · have hpos : 0 < b2.remainingQuantity := by
      rcases Nat.eq_zero_or_pos b2.remainingQuantity with h0 | h0
      · exact absurd (by simp [Order.IsFilled, h0]) hf
      · exact h0
    rw [if_neg hf]
    exact posLevel_cons hpos h

theorem posMap_levelCons {l : Level} {p : Price} {rest : OrderMap}
    (hl : posLevel l) (hrest : posMap rest) :
    posMap (if l.isEmpty then rest else (p, l) :: rest) := by
  by_cases he : l.isEmpty = true
  · rw [if_pos he]; exact hrest
  · rw [if_neg he]; exact posMap_cons hl hrest

theorem posMap_matchLoop (fuel : Nat) :
    ∀ (bids asks : OrderMap) (tr : List Trade),
      posMap bids → posMap asks →
      posMap (matchLoop fuel bids asks tr).bids ∧
      posMap (matchLoop fuel bids asks tr).asks := by
  induction fuel with
  | zero => intro bids asks tr hb ha; exact ⟨hb, ha⟩
  | succ n ih =>
    intro bids asks tr hb ha
    rcases bids with _ | ⟨⟨bp, bl⟩, brest⟩
    · simpa [matchLoop] using ⟨hb, ha⟩
    rcases asks with _ | ⟨⟨ap, al⟩, arest⟩
    · simpa [matchLoop] using ⟨hb, ha⟩
    by_cases h : bp < ap
    · simpa [matchLoop, h] using ⟨hb, ha⟩
    rcases bl with _ | ⟨b, btl⟩
    · simpa [matchLoop, h] using ⟨hb, ha⟩
    rcases al with _ | ⟨a, atl⟩
    · simpa [matchLoop, h] using ⟨hb, ha⟩
    have h1 : ¬ (min b.remainingQuantity a.remainingQuantity > b.remainingQuantity) :=
      Nat.not_lt.mpr (Nat.min_le_left _ _)
    have h2 : ¬ (min b.remainingQuantity a.remainingQuantity > a.remainingQuantity) :=
      Nat.not_lt.mpr (Nat.min_le_right _ _)
    have hblevel : posLevel (b :: btl) := hb _ (List.mem_cons_self _ _)
    have hbrest : posMap brest := fun pl hpl => hb _ (List.mem_cons_of_mem _ hpl)
    have halevel : posLevel (a :: atl) := ha _ (List.mem_cons_self _ _)
    have harest : posMap arest := fun pl hpl => ha _ (List.mem_cons_of_mem _ hpl)
    have hbtl : posLevel btl := fun x hx => hblevel x (List.mem_cons_of_mem _ hx)
    have hatl : posLevel atl := fun x hx => halevel x (List.mem_cons_of_mem _ hx)
    simp only [matchLoop, h, if_false, Order.Fill, h1, h2, ite_false]
    exact ih _ _ _
      (posMap_levelCons (posLevel_keep hbtl) hbrest)
      (posMap_levelCons (posLevel_keep hatl) harest)

theorem posMap_cancelFAKSide {m : OrderMap} (hm : posMap m) :
    posMap (cancelFAKSide m) := by
  induction m with
  | nil => exact posMap_nil
  | cons hd tl ih =>
    have hhd : posLevel hd.2 := hm _ (List.mem_cons_self _ _)
    have htl : posMap tl := fun pl hpl => hm _ (List.mem_cons_of_mem _ hpl)
    obtain ⟨p, l⟩ := hd
    simp only [cancelFAKSide] at ih ⊢
    rcases l with _ | ⟨o, rest⟩
    · simp only [List.filterMap_cons, cancelFAKLevel]
      exact posMap_cons hhd (ih htl)
    · have hrest : posLevel rest := fun x hx => hhd x (List.mem_cons_of_mem _ hx)
      by_cases hfak : (o.orderType == OrderType.FillAndKill) = true
      · rcases rest with _ | ⟨r0, rtl⟩
        · simp only [List.filterMap_cons, cancelFAKLevel, hfak, if_true]
          exact ih htl
        · simp only [List.filterMap_cons, cancelFAKLevel, hfak, if_true]
          exact posMap_cons hrest (ih htl)
      · simp only [List.filterMap_cons, cancelFAKLevel, hfak, if_false]
        exact posMap_cons hhd (ih htl)

theorem posLevel_eraseP {l : Level} {f : Order → Bool} (hl : posLevel l) :
    posLevel (l.eraseP f) :=
  fun x hx => hl x ((List.eraseP_sublist l).mem hx)

theorem posMap_cancelInMap {m : OrderMap} {p : Price} {id : OrderId}
    (hm : posMap m) : posMap (cancelInMap m p id) := by
  induction m with
  | nil => exact posMap_nil
  | cons hd tl ih =>
    have hhd : posLevel hd.2 := hm _ (List.mem_cons_self _ _)
    have htl : posMap tl := fun pl hpl => hm _ (List.mem_cons_of_mem _ hpl)
    obtain ⟨q, l⟩ := hd
    simp only [cancelInMap]
    split
    · rcases he : l.eraseP (fun o => o.orderId == id) with _ | ⟨e0, etl⟩
      · rw [he]
        exact htl
      · rw [he]
        exact posMap_cons (he ▸ posLevel_eraseP hhd) htl
    · exact posMap_cons hhd (ih htl)

theorem posBook_MatchOrders {b : OrderBook} (hb : posBook b) :
    posBook (b.MatchOrders).1 := by
  obtain ⟨h1, h2⟩ := hb
  have hlp := posMap_matchLoop (b.Size + 1) b.bids b.asks [] h1 h2
  simp only [OrderBook.MatchOrders]
  split
  · exact ⟨hlp.1, hlp.2⟩
  · exact ⟨posMap_cancelFAKSide hlp.1, posMap_cancelFAKSide hlp.2⟩

theorem posBook_AddOrder {b : OrderBook} {o : Order} (hb : posBook b)
    (ho : 0 < o.remainingQuantity) : posBook (b.AddOrder o).1 := by
  simp only [OrderBook.AddOrder]
  split
  · exact hb
  · split
    · exact hb
    · cases hs : o.side
      · simp only [hs]
        exact posBook_MatchOrders ⟨posMap_insertLevel hb.1 ho, hb.2⟩
      · simp only [hs]
        exact posBook_MatchOrders ⟨hb.1, posMap_insertLevel hb.2 ho⟩

theorem posBook_CancelOrder {b : OrderBook} {id : OrderId} (hb : posBook b) :
    posBook (b.CancelOrder id) := by
  simp only [OrderBook.CancelOrder]
  split
  · exact hb
  · split
    · exact ⟨posMap_cancelInMap hb.1, hb.2⟩
    · exact ⟨hb.1, posMap_cancelInMap hb.2⟩

theorem posBook_ModifyOrder {b : OrderBook} {m : OrderModify} (hb : posBook b)
    (hq : 0 < m.quantity) : posBook (b.ModifyOrder m).1 := by
  simp only [OrderBook.ModifyOrder]
  split
  · exact hb
  · exact posBook_AddOrder (posBook_CancelOrder hb) hq

theorem posBook_applyOp {b : OrderBook} {op : Op} (hb : posBook b)
    (hop : opValid op = true) : posBook (applyOp b op) := by
  cases op with
  | add o =>
    have h : o.remainingQuantity = o.initialQuantity ∧ o.initialQuantity ≠ 0 := by
      simpa [opValid] using hop
    exact posBook_AddOrder hb (h.1 ▸ Nat.pos_of_ne_zero h.2)
  | cancel id => exact posBook_CancelOrder hb
  | modify m =>
    have h : m.quantity ≠ 0 := by simpa [opValid] using hop
    exact posBook_ModifyOrder hb (Nat.pos_of_ne_zero h)

theorem posBook_mem {b : OrderBook} (hb : posBook b) :
    ∀ o ∈ allOrders b, 0 < o.remainingQuantity := by
  intro o ho
  rcases List.mem_append.mp ho with h | h <;>
  · obtain ⟨l, hl, hol⟩ := List.mem_flatten.mp h
    obtain ⟨pl, hpl, rfl⟩ := List.mem_map.mp hl
    first
    | exact hb.1 _ hpl o hol
    | exact hb.2 _ hpl o hol

/-- C5 (amended): if every submitted operation carries a valid positive
quantity (the spec's `initial_qty > 0` creation precondition), then
after every sequence of public operations every resting order has
strictly positive remaining quantity.  The unamended claim is refuted
by `C5_zero_quantity_order_rests`: the code never validates quantity. -/
theorem C5_resting_orders_positive (ops : List Op)
    (h : ∀ op ∈ ops, opValid op = true) :
    ∀ o ∈ allOrders (runOps ops), 0 < o.remainingQuantity := by
  apply posBook_mem
  have key : ∀ (l : List Op) (b : OrderBook), posBook b →
      (∀ op ∈ l, opValid op = true) → posBook (l.foldl applyOp b) := by
    intro l
    induction l with
    | nil => intro b hb _; exact hb
    | cons hd tl ih =>
      intro b hb hops
      exact ih _ (posBook_applyOp hb (hops hd (List.mem_cons_self _ _)))
        (fun op hop => hops op (List.mem_cons_of_mem _ hop))
  exact key ops emptyBook ⟨posMap_nil, posMap_nil⟩ h

/-- C5 witness: the amended theorem applied to the one-operation trace
adding a GoodTilCancel buy of quantity 5. -/
theorem C5_resting_orders_positive_witness :
    0 < (mkOrder OrderType.GoodTilCancel 1 Side.Buy 100 5).remainingQuantity :=
  C5_resting_orders_positive
    [Op.add (mkOrder OrderType.GoodTilCancel 1 Side.Buy 100 5)]
    (by decide) _ (by decide)

/-!
Time priority within a price level (claim C6).
-/

/-- Two orders agree on every field except possibly the remaining
quantity. -/
def sameCore (o o2 : Order) : Prop :=
  o2.orderType = o.orderType ∧ o2.orderId = o.orderId ∧ o2.side = o.side ∧
  o2.price = o.price ∧ o2.initialQuantity = o.initialQuantity

/-- How a level queue can evolve under matching and cleanup: repeatedly
drop the front order, or replace the front by a partial fill of itself.
Orders behind the front are never touched. -/
inductive Consumed (l : Level) : Level → Prop where
  | refl : Consumed l l
  | dropFront {o : Order} {t : Level} : Consumed l (o :: t) → Consumed l t
  | fillFront {o o2 : Order} {t : Level} : Consumed l (o :: t) → sameCore o o2 →
      o2.remainingQuantity ≤ o.remainingQuantity → Consumed l (o2 :: t)

theorem Consumed.trans {l l2 l3 : Level} (h1 : Consumed l l2)
    (h2 : Consumed l2 l3) : Consumed l l3 := by
  induction h2 with
  | refl => exact h1
  | dropFront _ ih => exact Consumed.dropFront ih
  | fillFront _ hc hle ih => exact Consumed.fillFront ih hc hle

theorem sameCore_chain {x y z : Order} (h1 : sameCore x y) (h2 : sameCore y z) :
    sameCore x z :=
  ⟨h2.1.trans h1.1, h2.2.1.trans h1.2.1, h2.2.2.1.trans h1.2.2.1,
   h2.2.2.2.1.trans h1.2.2.2.1, h2.2.2.2.2.trans h1.2.2.2.2⟩

/-- Every level of the second map comes from a level of the first map at
the same price, by consuming from the front. -/
def mapConsumed (m m2 : OrderMap) : Prop :=
  ∀ pl ∈ m2, ∃ l, (pl.1, l) ∈ m ∧ Consumed l pl.2

theorem mapConsumed_refl (m : OrderMap) : mapConsumed m m := by
  intro pl hpl
  obtain ⟨a, b⟩ := pl
  exact ⟨b, hpl, Consumed.refl⟩

theorem mapConsumed_trans {m m2 m3 : OrderMap} (h1 : mapConsumed m m2)
    (h2 : mapConsumed m2 m3) : mapConsumed m m3 := by
  intro pl hpl
  obtain ⟨l2, hl2, hc2⟩ := h2 pl hpl
  obtain ⟨l1, hl1, hc1⟩ := h1 (pl.1, l2) hl2
  exact ⟨l1, hl1, hc1.trans hc2⟩

theorem mapConsumed_tail {p : Price} {l : Level} {rest : OrderMap} :
    mapConsumed ((p, l) :: rest) rest := by
  intro pl hpl
  obtain ⟨a, b⟩ := pl
  exact ⟨b, List.mem_cons_of_mem _ hpl, Consumed.refl⟩

theorem mapConsumed_step {bp : Price} {b b2 : Order} {btl : Level} {brest : OrderMap}
    (hc : sameCore b b2) (hle : b2.remainingQuantity ≤ b.remainingQuantity) :
    mapConsumed ((bp, b :: btl) :: brest)
      (if (if b2.IsFilled then btl else b2 :: btl).isEmpty then brest
       else (bp, if b2.IsFilled then btl else b2 :: btl) :: brest) := by
  have hcons : Consumed (b :: btl) (if b2.IsFilled then btl else b2 :: btl) := by
    by_cases hf : b2.IsFilled = true
    · rw [if_pos hf]; exact Consumed.dropFront Consumed.refl
    · rw [if_neg hf]; exact Consumed.fillFront Consumed.refl hc hle
  by_cases he : (if b2.IsFilled then btl else b2 :: btl).isEmpty = true
  · rw [if_pos he]; exact mapConsumed_tail
  · rw [if_neg he]
    intro pl hpl
    obtain ⟨a, l⟩ := pl
    rcases List.mem_cons.mp hpl with h | h
    · rw [Prod.mk.injEq] at h
      obtain ⟨rfl, rfl⟩ := h
      exact ⟨b :: btl, List.mem_cons_self _ _, hcons⟩
    · exact ⟨l, List.mem_cons_of_mem _ h, Consumed.refl⟩

theorem matchLoop_consumed (fuel : Nat) :
    ∀ (bids asks : OrderMap) (tr : List Trade),
      mapConsumed bids (matchLoop fuel bids asks tr).bids ∧
      mapConsumed asks (matchLoop fuel bids asks tr).asks := by
  induction fuel with
  | zero => intro bids asks tr; exact ⟨mapConsumed_refl _, mapConsumed_refl _⟩
  | succ n ih =>
    intro bids asks tr
    rcases bids with _ | ⟨⟨bp, bl⟩, brest⟩
    · constructor <;> simp [matchLoop, mapConsumed_refl]
    rcases asks with _ | ⟨⟨ap, al⟩, arest⟩
    · constructor <;> simp [matchLoop, mapConsumed_refl]
    by_cases h : bp < ap
    · constructor <;> simp [matchLoop, h, mapConsumed_refl]
    rcases bl with _ | ⟨b, btl⟩
    · constructor <;> simp [matchLoop, h, mapConsumed_refl]
    rcases al with _ | ⟨a, atl⟩
    · constructor <;> simp [matchLoop, h, mapConsumed_refl]
    have h1 : ¬ (min b.remainingQuantity a.remainingQuantity > b.remainingQuantity) :=
      Nat.not_lt.mpr (Nat.min_le_left _ _)
    have h2 : ¬ (min b.remainingQuantity a.remainingQuantity > a.remainingQuantity) :=
      Nat.not_lt.mpr (Nat.min_le_right _ _)
    simp only [matchLoop, h, if_false, Order.Fill, h1, h2, ite_false]
    constructor
    · refine mapConsumed_trans ?_ (ih _ _ _).1
      exact mapConsumed_step ⟨rfl, rfl, rfl, rfl, rfl⟩ (Nat.sub_le _ _)
    · refine mapConsumed_trans ?_ (ih _ _ _).2
      exact mapConsumed_step ⟨rfl, rfl, rfl, rfl, rfl⟩ (Nat.sub_le _ _)

theorem mapConsumed_cancelFAKSide (m : OrderMap) : mapConsumed m (cancelFAKSide m) := by
  induction m with
  | nil => intro pl hpl; cases hpl
  | cons hd tl ih =>
    obtain ⟨p, l⟩ := hd
    have lift : ∀ pl ∈ cancelFAKSide tl,
        ∃ l0, (pl.1, l0) ∈ (p, l) :: tl ∧ Consumed l0 pl.2 := by
      intro pl hpl
      obtain ⟨l0, hl0, hc⟩ := ih pl hpl
      exact ⟨l0, List.mem_cons_of_mem _ hl0, hc⟩
    rcases l with _ | ⟨o, rest⟩
    · simp only [cancelFAKSide, List.filterMap_cons, cancelFAKLevel]
      intro pl hpl
      rcases List.mem_cons.mp hpl with hh | hh
      · subst hh
        exact ⟨[], List.mem_cons_self _ _, Consumed.refl⟩
      · exact lift pl hh
    · by_cases hfak : (o.orderType == OrderType.FillAndKill) = true
      · rcases rest with _ | ⟨r0, rtl⟩
        · simp only [cancelFAKSide, List.filterMap_cons, cancelFAKLevel, hfak, if_true]
          exact lift
        · simp only [cancelFAKSide, List.filterMap_cons, cancelFAKLevel, hfak, if_true]
          intro pl hpl
          rcases List.mem_cons.mp hpl with hh | hh
          · subst hh
            exact ⟨o :: r0 :: rtl, List.mem_cons_self _ _,
              Consumed.dropFront Consumed.refl⟩
          · exact lift pl hh
      · simp only [cancelFAKSide, List.filterMap_cons, cancelFAKLevel, hfak, if_false]
        intro pl hpl
        rcases List.mem_cons.mp hpl with hh | hh
        · subst hh
          exact ⟨o :: rest, List.mem_cons_self _ _, Consumed.refl⟩
        · exact lift pl hh

theorem MatchOrders_consumed (b : OrderBook) :
    mapConsumed b.bids (b.MatchOrders).1.bids ∧
    mapConsumed b.asks (b.MatchOrders).1.asks := by
  have hl := matchLoop_consumed (b.Size + 1) b.bids b.asks []
  simp only [OrderBook.MatchOrders]
  split
  · exact hl
  · exact ⟨mapConsumed_trans hl.1 (mapConsumed_cancelFAKSide _),
           mapConsumed_trans hl.2 (mapConsumed_cancelFAKSide _)⟩

/-- If a queue starts as `A :: rest` (ids behind the front distinct from
`A`'s) and evolves by front-consumption into a queue still containing an
order with `A`'s id, then nothing behind `A` was touched: the queue is
that order followed by the original `rest`. -/
theorem consumed_front_untouched {A : Order} {rest l2 : Level}
    (h : Consumed (A :: rest) l2)
    (huniq : ∀ x ∈ rest, x.orderId ≠ A.orderId) :
    ∀ A2 ∈ l2, A2.orderId = A.orderId →
      l2 = A2 :: rest ∧ sameCore A A2 ∧
        A2.remainingQuantity ≤ A.remainingQuantity := by
  induction h with
  | refl =>
    intro A2 hA2 hid
    rcases List.mem_cons.mp hA2 with hh | hh
    · subst hh
      exact ⟨rfl, ⟨rfl, rfl, rfl, rfl, rfl⟩, le_refl _⟩
    · exact absurd hid (huniq A2 hh)
  | dropFront _ ih =>
    intro A2 hA2 hid
    obtain ⟨heq, _, _⟩ := ih A2 (List.mem_cons_of_mem _ hA2) hid
    injection heq with h1 h2
    subst h2
    exact absurd hid (huniq A2 hA2)
  | fillFront _ hc hle ih =>
    rename_i o o2 t _
    intro A2 hA2 hid
    rcases List.mem_cons.mp hA2 with hh | hh
    · subst hh
      have hido : o.orderId = A.orderId := by rw [← hc.2.1]; exact hid
      obtain ⟨heq, hcAo, hleo⟩ := ih o (List.mem_cons_self _ _) hido
      injection heq with h1 h2
      subst h2
      exact ⟨rfl, sameCore_chain hcAo hc, le_trans hle hleo⟩
    · obtain ⟨heq, _, _⟩ := ih A2 (List.mem_cons_of_mem _ hh) hid
      injection heq with h1 h2
      subst h2
      exact absurd hid (huniq A2 hh)

/-- Two levels of a map with duplicate-free keys sharing a price are the
same level. -/
theorem mem_eq_of_keys_nodup {m : OrderMap} (hnd : (m.map Prod.fst).Nodup)
    {p : Price} {l l2 : Level} (h1 : (p, l) ∈ m) (h2 : (p, l2) ∈ m) : l = l2 := by
  induction m with
  | nil => cases h1
  | cons hd tl ih =>
    have hnd2 := hnd
    rw [List.map_cons, List.nodup_cons] at hnd2
    rcases List.mem_cons.mp h1 with ha | ha <;> rcases List.mem_cons.mp h2 with hb | hb
    · rw [← hb] at ha
      rw [Prod.mk.injEq] at ha
      exact ha.2
    · exfalso
      apply hnd2.1
      rw [← ha]
      exact List.mem_map.mpr ⟨(p, l2), hb, rfl⟩
    · exfalso
      apply hnd2.1
      rw [← hb]
      exact List.mem_map.mpr ⟨(p, l), ha, rfl⟩
    · exact ih hnd2.2 ha hb

/-- A level keeps ascending sorted keys when an order is appended to an
existing level. -/
theorem insertLevel_append {m : OrderMap} {p : Price} {l : Level} {o : Order}
    (hsorted : List.Pairwise (fun x y => x.1 < y.1) m)
    (hmem : (p, l) ∈ m) : (p, l ++ [o]) ∈ insertLevel m p o := by
  induction m with
  | nil => cases hmem
  | cons hd tl ih =>
    obtain ⟨q, l0⟩ := hd
    rcases List.mem_cons.mp hmem with hh | hh
    · rw [Prod.mk.injEq] at hh
      obtain ⟨rfl, rfl⟩ := hh
      simp only [insertLevel, lt_irrefl, if_false, if_pos rfl]
      exact List.mem_cons_self _ _
    · have hq : q < p := (List.pairwise_cons.mp hsorted).1 _ hh
      simp only [insertLevel, if_neg (not_lt.mpr (le_of_lt hq)), if_neg (ne_of_gt hq)]
      exact List.mem_cons_of_mem _ (ih (List.pairwise_cons.mp hsorted).2 hh)

/-- C6: time priority within a price level.  First conjunct: insertion
(`ProcessOrder`) appends the incoming order at the TAIL of its price
level's queue.  Second and third conjuncts (bid and ask side): matching
and cleanup consume a level only from its HEAD — for a level that
started as `A` followed by `rest` (ids distinct from `A`'s), as long as
an order carrying `A`'s id is still resting after `MatchOrders`, the
whole of `rest` sits untouched behind it in its original queue order;
in particular a later order `B ∈ rest` receives no fill before `A` is
fully filled and removed. -/
theorem C6_time_priority :
    (∀ (m : OrderMap) (p : Price) (l : Level) (o : Order),
        List.Pairwise (fun x y => x.1 < y.1) m → (p, l) ∈ m →
        (p, l ++ [o]) ∈ insertLevel m p o) ∧
    (∀ (b : OrderBook) (p : Price) (A : Order) (rest : Level),
        (b.bids.map Prod.fst).Nodup →
        (p, A :: rest) ∈ b.bids →
        (∀ x ∈ rest, x.orderId ≠ A.orderId) →
        ∀ l2, (p, l2) ∈ (b.MatchOrders).1.bids →
        ∀ A2 ∈ l2, A2.orderId = A.orderId →
          l2 = A2 :: rest ∧ sameCore A A2 ∧
            A2.remainingQuantity ≤ A.remainingQuantity) ∧
    (∀ (b : OrderBook) (p : Price) (A : Order) (rest : Level),
        (b.asks.map Prod.fst).Nodup →
        (p, A :: rest) ∈ b.asks →
        (∀ x ∈ rest, x.orderId ≠ A.orderId) →
        ∀ l2, (p, l2) ∈ (b.MatchOrders).1.asks →
        ∀ A2 ∈ l2, A2.orderId = A.orderId →
          l2 = A2 :: rest ∧ sameCore A A2 ∧
            A2.remainingQuantity ≤ A.remainingQuantity) := by
  refine ⟨fun m p l o hs hm => insertLevel_append hs hm, ?_, ?_⟩
  · intro b p A rest hnd hmem huniq l2 hl2 A2 hA2 hid
    obtain ⟨l0, hl0, hc⟩ := (MatchOrders_consumed b).1 (p, l2) hl2
    have : l0 = A :: rest := mem_eq_of_keys_nodup hnd hl0 hmem
    subst this
    exact consumed_front_untouched hc huniq A2 hA2 hid
  · intro b p A rest hnd hmem huniq l2 hl2 A2 hA2 hid
    obtain ⟨l0, hl0, hc⟩ := (MatchOrders_consumed b).2 (p, l2) hl2
    have : l0 = A :: rest := mem_eq_of_keys_nodup hnd hl0 hmem
    subst this
    exact consumed_front_untouched hc huniq A2 hA2 hid

/-!
Trade legs and quantity conservation (claim C9).
-/

/-- Total quantity of all trade legs carrying the given order id (both
legs counted when both carry it). -/
def legSum (id : OrderId) (ts : List Trade) : Quantity :=
  (ts.map (fun t =>
    (if t.bidTrade.orderId = id then t.bidTrade.quantity else 0) +
    (if t.askTrade.orderId = id then t.askTrade.quantity else 0))).sum

/-- Total remaining quantity of the orders with the given id in a level
queue. -/
def levelRem (id : OrderId) (l : Level) : Quantity :=
  (l.map (fun o => if o.orderId = id then o.remainingQuantity else 0)).sum

/-- Total remaining quantity of the orders with the given id on one
side of the book. -/
def remInMap (id : OrderId) (m : OrderMap) : Quantity :=
  ((levelOrders m).map (fun o => if o.orderId = id then o.remainingQuantity else 0)).sum

/-- A trade leg carries the id and the own limit price of an order
resting in the given map. -/
def legFrom (m : OrderMap) (leg : TradeInfo) : Prop :=
  ∃ pl ∈ m, ∃ o ∈ pl.2, leg.orderId = o.orderId ∧ leg.price = o.price

theorem legSum_append (id : OrderId) (ts ts2 : List Trade) :
    legSum id (ts ++ ts2) = legSum id ts + legSum id ts2 := by
  simp [legSum]

theorem remInMap_cons (id : OrderId) (p : Price) (l : Level) (rest : OrderMap) :
    remInMap id ((p, l) :: rest) = levelRem id l + remInMap id rest := by
  simp [remInMap, levelOrders, levelRem]

theorem levelRem_nil (id : OrderId) : levelRem id [] = 0 := rfl

theorem levelRem_cons (id : OrderId) (x : Order) (l : Level) :
    levelRem id (x :: l) =
      (if x.orderId = id then x.remainingQuantity else 0) + levelRem id l := by
  simp [levelRem]

theorem legSum_single (id : OrderId) (bi ai : TradeInfo) :
    legSum id [Trade.mk bi ai] =
      (if bi.orderId = id then bi.quantity else 0) +
      (if ai.orderId = id then ai.quantity else 0) := by
  simp [legSum]

theorem remInMap_levelCons (id : OrderId) (p : Price) (l : Level) (rest : OrderMap) :
    remInMap id (if l.isEmpty then rest else (p, l) :: rest)
      = levelRem id l + remInMap id rest := by
  by_cases he : l.isEmpty = true
  · rw [if_pos he]
    rw [List.isEmpty_iff.mp he]
    simp [levelRem_nil]
  · rw [if_neg he]
    exact remInMap_cons id p l rest

theorem levelRem_fill (id : OrderId) (b : Order) (q : Quantity) (btl : Level)
    (hq : q ≤ b.remainingQuantity) :
    levelRem id
        (if ({ b with remainingQuantity := b.remainingQuantity - q } : Order).IsFilled
         then btl
         else { b with remainingQuantity := b.remainingQuantity - q } :: btl) +
      (if b.orderId = id then q else 0) =
    (if b.orderId = id then b.remainingQuantity else 0) + levelRem id btl := by
  by_cases hf : ({ b with remainingQuantity := b.remainingQuantity - q } : Order).IsFilled = true
  · rw [if_pos hf]
    have h0 : b.remainingQuantity - q = 0 := by
      simpa [Order.IsFilled] using hf
    have hbq : b.remainingQuantity = q := le_antisymm (Nat.sub_eq_zero_iff_le.mp h0) hq
    by_cases hid : b.orderId = id
    · simp [hid, hbq, Nat.add_comm]
    · simp [hid]
  · rw [if_neg hf, levelRem_cons]
    by_cases hid : b.orderId = id
    · simp only [hid, if_true, eq_self_iff_true]
      rw [Nat.add_right_comm, Nat.sub_add_cancel hq]
    · simp [hid]

theorem matchLoop_conservation (fuel : Nat) :
    ∀ (bids asks : OrderMap) (tr : List Trade) (id : OrderId),
      legSum id (matchLoop fuel bids asks tr).trades
        + remInMap id (matchLoop fuel bids asks tr).bids
        + remInMap id (matchLoop fuel bids asks tr).asks
      = legSum id tr + remInMap id bids + remInMap id asks := by
  induction fuel with
  | zero => intro bids asks tr id; rfl
  | succ n ih =>
    intro bids asks tr id
    rcases bids with _ | ⟨⟨bp, bl⟩, brest⟩
    · simp [matchLoop]
    rcases asks with _ | ⟨⟨ap, al⟩, arest⟩
    · simp [matchLoop]
    by_cases h : bp < ap
    · simp [matchLoop, h]
    rcases bl with _ | ⟨b, btl⟩
    · simp [matchLoop, h]
    rcases al with _ | ⟨a, atl⟩
    · simp [matchLoop, h]
    have h1 : ¬ (min b.remainingQuantity a.remainingQuantity > b.remainingQuantity) :=
      Nat.not_lt.mpr (Nat.min_le_left _ _)
    have h2 : ¬ (min b.remainingQuantity a.remainingQuantity > a.remainingQuantity) :=
      Nat.not_lt.mpr (Nat.min_le_right _ _)
    simp only [matchLoop, h, if_false, Order.Fill, h1, h2, ite_false]
    rw [ih]
    simp only [legSum_append, legSum_single, remInMap_cons, remInMap_levelCons,
      levelRem_cons]
    have e1 := levelRem_fill id b (min b.remainingQuantity a.remainingQuantity) btl
      (Nat.min_le_left _ _)
    have e2 := levelRem_fill id a (min b.remainingQuantity a.remainingQuantity) atl
      (Nat.min_le_right _ _)
    rw [← e1, ← e2]
    ring

theorem consumed_mem_origin {l l2 : Level} (h : Consumed l l2) :
    ∀ o2 ∈ l2, ∃ o ∈ l, o2.orderId = o.orderId ∧ o2.price = o.price := by
  induction h with
  | refl => intro o2 ho2; exact ⟨o2, ho2, rfl, rfl⟩
  | dropFront _ ih => intro o2 ho2; exact ih o2 (List.mem_cons_of_mem _ ho2)
  | fillFront _ hc _ ih =>
    intro o2 ho2
    rcases List.mem_cons.mp ho2 with hh | hh
    · subst hh
      obtain ⟨o0, ho0, hid, hpr⟩ := ih _ (List.mem_cons_self _ _)
      exact ⟨o0, ho0, hc.2.1.trans hid, hc.2.2.2.1.trans hpr⟩
    · exact ih o2 (List.mem_cons_of_mem _ hh)

theorem legFrom_mono {m m2 : OrderMap} (h : mapConsumed m m2) {leg : TradeInfo}
    (hleg : legFrom m2 leg) : legFrom m leg := by
  obtain ⟨pl, hpl, o2, ho2, hid, hpr⟩ := hleg
  obtain ⟨l, hl, hc⟩ := h pl hpl
  obtain ⟨o, ho, hid2, hpr2⟩ := consumed_mem_origin hc o2 ho2
  exact ⟨(pl.1, l), hl, o, ho, hid.trans hid2, hpr.trans hpr2⟩

theorem matchLoop_trades_spec (fuel : Nat) :
    ∀ (bids asks : OrderMap) (tr : List Trade),
      ∀ t ∈ (matchLoop fuel bids asks tr).trades,
        t ∈ tr ∨ (t.bidTrade.quantity = t.askTrade.quantity ∧
          legFrom bids t.bidTrade ∧ legFrom asks t.askTrade) := by
  induction fuel with
  | zero => intro bids asks tr t ht; exact Or.inl ht
  | succ n ih =>
    intro bids asks tr t ht
    rcases bids with _ | ⟨⟨bp, bl⟩, brest⟩
    · simp only [matchLoop] at ht; exact Or.inl ht
    rcases asks with _ | ⟨⟨ap, al⟩, arest⟩
    · simp only [matchLoop] at ht; exact Or.inl ht
    by_cases h : bp < ap
    · simp only [matchLoop, h, if_true] at ht; exact Or.inl ht
    rcases bl with _ | ⟨b, btl⟩
    · simp only [matchLoop, h, if_false] at ht; exact Or.inl ht
    rcases al with _ | ⟨a, atl⟩
    · simp only [matchLoop, h, if_false] at ht; exact Or.inl ht
    have h1 : ¬ (min b.remainingQuantity a.remainingQuantity > b.remainingQuantity) :=
      Nat.not_lt.mpr (Nat.min_le_left _ _)
    have h2 : ¬ (min b.remainingQuantity a.remainingQuantity > a.remainingQuantity) :=
      Nat.not_lt.mpr (Nat.min_le_right _ _)
    simp only [matchLoop, h, if_false, Order.Fill, h1, h2, ite_false] at ht
    rcases ih _ _ _ t ht with htr | ⟨hq, hb, ha⟩
    · rcases List.mem_append.mp htr with htr2 | htr2
      · exact Or.inl htr2
      · rcases List.mem_singleton.mp htr2 with rfl
        refine Or.inr ⟨rfl, ?_, ?_⟩
        · exact ⟨(bp, b :: btl), List.mem_cons_self _ _, b, List.mem_cons_self _ _, rfl, rfl⟩
        · exact ⟨(ap, a :: atl), List.mem_cons_self _ _, a, List.mem_cons_self _ _, rfl, rfl⟩
    · refine Or.inr ⟨hq, ?_, ?_⟩
      · refine legFrom_mono ?_ hb
        exact mapConsumed_step ⟨rfl, rfl, rfl, rfl, rfl⟩ (Nat.sub_le _ _)
      · refine legFrom_mono ?_ ha
        exact mapConsumed_step ⟨rfl, rfl, rfl, rfl, rfl⟩ (Nat.sub_le _ _)

theorem MatchOrders_trades (b : OrderBook) :
    (b.MatchOrders).2.1 = (matchLoop (b.Size + 1) b.bids b.asks []).trades := by
  simp only [OrderBook.MatchOrders]
  split <;> rfl

/-- C9: every trade emitted by the matching engine has two legs with
the same quantity; the bid leg carries the id and the own limit price of
an order resting in the bid book and the ask leg those of an order in
the ask book; and, over any run of the match loop, the total quantity of
the trade legs carrying an order id plus the remaining quantity left
resting under that id equals the remaining quantity that rested under
that id beforehand (quantity conservation — every fill is accounted for
by trade legs).  `AddOrder` and `ModifyOrder` emit exactly the trades of
such a `MatchOrders` run, as the last two conjuncts state. -/
theorem C9_trade_leg_accounting :
    (∀ b : OrderBook, ∀ t ∈ (b.MatchOrders).2.1,
        t.bidTrade.quantity = t.askTrade.quantity ∧
        legFrom b.bids t.bidTrade ∧ legFrom b.asks t.askTrade) ∧
    (∀ (fuel : Nat) (bids asks : OrderMap) (id : OrderId),
        legSum id (matchLoop fuel bids asks []).trades
          + remInMap id (matchLoop fuel bids asks []).bids
          + remInMap id (matchLoop fuel bids asks []).asks
        = remInMap id bids + remInMap id asks) ∧
    (∀ (b : OrderBook) (o : Order), ∀ t ∈ (b.AddOrder o).2,
        t.bidTrade.quantity = t.askTrade.quantity) ∧
    (∀ (b : OrderBook) (m : OrderModify), ∀ t ∈ (b.ModifyOrder m).2,
        t.bidTrade.quantity = t.askTrade.quantity) := by
  have hmain : ∀ b : OrderBook, ∀ t ∈ (b.MatchOrders).2.1,
      t.bidTrade.quantity = t.askTrade.quantity ∧
      legFrom b.bids t.bidTrade ∧ legFrom b.asks t.askTrade := by
    intro b t ht
    rw [MatchOrders_trades] at ht
    rcases matchLoop_trades_spec (b.Size + 1) b.bids b.asks [] t ht with h | h
    · cases h
    · exact h
  have hadd : ∀ (b : OrderBook) (o : Order), ∀ t ∈ (b.AddOrder o).2,
      t.bidTrade.quantity = t.askTrade.quantity := by
    intro b o t ht
    simp only [OrderBook.AddOrder] at ht
    split at ht
    · cases ht
    · split at ht
      · cases ht
      · exact (hmain _ t ht).1
  refine ⟨hmain, ?_, hadd, ?_⟩
  · intro fuel bids asks id
    have := matchLoop_conservation fuel bids asks [] id
    simpa [legSum] using this
  · intro b m t ht
    simp only [OrderBook.ModifyOrder] at ht
    split at ht
    · cases ht
    · exact hadd _ _ t ht

/-!
Frame conditions of CancelOrder (claim C10).
-/

/-- Observation: the level queue resting at a given price, if any. -/
def levelAt : OrderMap → Price → Option Level
  | [], _ => none
  | (q, l) :: tl, p => if p = q then some l else levelAt tl p

/-- What cancelling an id leaves of a level queue: the first order with
that id removed; `none` when nothing else rested there. -/
def eraseOutcome (id : OrderId) : Option Level → Option Level
  | none => none
  | some l =>
    match l.eraseP (fun x => x.orderId == id) with
    | [] => none
    | l2 => some l2

theorem levelAt_not_mem_keys {m : OrderMap} {p : Price}
    (h : p ∉ m.map Prod.fst) : levelAt m p = none := by
  induction m with
  | nil => rfl
  | cons hd tl ih =>
    obtain ⟨q0, l0⟩ := hd
    rw [List.map_cons, List.mem_cons, not_or] at h
    simp only [levelAt, if_neg h.1]
    exact ih h.2

theorem cancelInMap_levelAt {m : OrderMap} (hnd : (m.map Prod.fst).Nodup)
    (p : Price) (id : OrderId) :
    (∀ q, q ≠ p → levelAt (cancelInMap m p id) q = levelAt m q) ∧
    levelAt (cancelInMap m p id) p = eraseOutcome id (levelAt m p) := by
  induction m with
  | nil => exact ⟨fun q hq => rfl, rfl⟩
  | cons hd tl ih =>
    obtain ⟨q0, l0⟩ := hd
    rw [List.map_cons, List.nodup_cons] at hnd
    have ihr := ih hnd.2
    by_cases hpq : p = q0
    · subst hpq
      simp only [cancelInMap, eq_self_iff_true, if_true]
      rcases he : l0.eraseP (fun x => x.orderId == id) with _ | ⟨e0, etl⟩ <;> rw [he]
      · constructor
        · intro q hq
          simp only [levelAt, if_neg hq]
        · have h0 : levelAt tl p = none := levelAt_not_mem_keys hnd.1
          simp only [levelAt, eq_self_iff_true, if_true, eraseOutcome, he, h0]
      · constructor
        · intro q hq
          simp only [levelAt, if_neg hq]
        · simp only [levelAt, eq_self_iff_true, if_true, eraseOutcome, he]
    · simp only [cancelInMap, if_neg hpq]
      constructor
      · intro q hq
        by_cases hqq : q = q0
        · simp only [levelAt, if_pos hqq]
        · simp only [levelAt, if_neg hqq]
          exact ihr.1 q hq
      · simp only [levelAt, if_neg hpq]
        exact ihr.2

theorem levelOrders_cons (p : Price) (l : Level) (tl : OrderMap) :
    levelOrders ((p, l) :: tl) = l ++ levelOrders tl := by
  simp [levelOrders]

theorem levelOrders_cancelInMap {m : OrderMap} {p : Price} {id : OrderId}
    {l : Level} {o : Order}
    (hkeys : (m.map Prod.fst).Nodup)
    (hmem : (p, l) ∈ m) (hol : o ∈ l) (hoid : (o.orderId == id) = true)
    (hidnd : ((levelOrders m).map Order.orderId).Nodup) :
    levelOrders (cancelInMap m p id)
      = (levelOrders m).eraseP (fun x => x.orderId == id) := by
  induction m with
  | nil => cases hmem
  | cons hd tl ih =>
    obtain ⟨q0, l0⟩ := hd
    rw [List.map_cons, List.nodup_cons] at hkeys
    rw [levelOrders_cons, List.map_append] at hidnd
    have hidnd2 := List.nodup_append.mp hidnd
    by_cases hpq : p = q0
    · subst hpq
      have hl : l = l0 := by
        rcases List.mem_cons.mp hmem with hh | hh
        · rw [Prod.mk.injEq] at hh
          exact hh.2
        · exact absurd (List.mem_map.mpr ⟨(p, l), hh, rfl⟩) hkeys.1
      subst hl
      simp only [cancelInMap, eq_self_iff_true, if_true]
      have herase : (l ++ levelOrders tl).eraseP (fun x => x.orderId == id)
          = l.eraseP (fun x => x.orderId == id) ++ levelOrders tl :=
        List.eraseP_append_left (p := fun x => x.orderId == id) (a := o)
          hoid (levelOrders tl) hol
      rw [levelOrders_cons, herase]
      rcases he : l.eraseP (fun x => x.orderId == id) with _ | ⟨e0, etl⟩ <;> rw [he]
      · rfl
      · rw [levelOrders_cons]
    · have hmem2 : (p, l) ∈ tl := by
        rcases List.mem_cons.mp hmem with hh | hh
        · rw [Prod.mk.injEq] at hh
          exact absurd hh.1 hpq
        · exact hh
      have hno : ∀ x ∈ l0, ¬ ((x.orderId == id) = true) := by
        intro x hx hxid
        have hxid2 : x.orderId = id := by simpa using hxid
        have hoid2 : o.orderId = id := by simpa using hoid
        have homem : o.orderId ∈ (levelOrders tl).map Order.orderId := by
          refine List.mem_map.mpr ⟨o, ?_, rfl⟩
          simp only [levelOrders, List.mem_flatten]
          exact ⟨l, List.mem_map.mpr ⟨(p, l), hmem2, rfl⟩, hol⟩
        refine hidnd2.2.2 (List.mem_map.mpr ⟨x, hx, rfl⟩) ?_
        rw [hxid2, ← hoid2]
        exact homem
      simp only [cancelInMap, if_neg hpq]
      rw [levelOrders_cons, levelOrders_cons,
        List.eraseP_append_right _ hno, ih hkeys.2 hmem2 hidnd2.2.1]

theorem no_match_after_eraseP {l : List Order} {id : OrderId}
    (hnd : (l.map Order.orderId).Nodup) :
    ∀ x ∈ l.eraseP (fun o => o.orderId == id), x.orderId ≠ id := by
  induction l with
  | nil => intro x hx; cases hx
  | cons h t ih =>
    rw [List.map_cons, List.nodup_cons] at hnd
    intro x hx hxid
    by_cases hh : (h.orderId == id) = true
    · simp only [List.eraseP_cons, hh, cond_true] at hx
      apply hnd.1
      have h2 : h.orderId = id := by simpa using hh
      rw [h2, ← hxid]
      exact List.mem_map.mpr ⟨x, hx, rfl⟩
    · have hh2 : (h.orderId == id) = false := by
        cases hb : (h.orderId == id)
        · rfl
        · exact absurd hb hh
      simp only [List.eraseP_cons, hh2, cond_false] at hx
      rcases List.mem_cons.mp hx with rfl | hx2
      · exact hh (by simpa using hxid)
      · exact ih hnd.2 x hx2 hxid

/-- The order-level consequences of `cancelInMap` on one side. -/
theorem cancel_map_facts {m : OrderMap} {p : Price} {id : OrderId}
    {l : Level} {o : Order}
    (hkeys : (m.map Prod.fst).Nodup)
    (hmem : (p, l) ∈ m) (hol : o ∈ l) (hoid : (o.orderId == id) = true)
    (hidnd : ((levelOrders m).map Order.orderId).Nodup) :
    (levelOrders (cancelInMap m p id)).length + 1 = (levelOrders m).length ∧
    (∀ x ∈ levelOrders m, x.orderId ≠ id → x ∈ levelOrders (cancelInMap m p id)) ∧
    (∀ x ∈ levelOrders (cancelInMap m p id), x.orderId ≠ id) := by
  have hflat := levelOrders_cancelInMap hkeys hmem hol hoid hidnd
  have homem : o ∈ levelOrders m := by
    simp only [levelOrders, List.mem_flatten]
    exact ⟨l, List.mem_map.mpr ⟨(p, l), hmem, rfl⟩, hol⟩
  refine ⟨?_, ?_, ?_⟩
  · rw [hflat, List.length_eraseP_of_mem homem hoid]
    have : 0 < (levelOrders m).length := List.length_pos.mpr (by
      intro h
      rw [h] at homem
      cases homem)
    omega
  · intro x hx hxid
    rw [hflat]
    refine (List.mem_eraseP_of_neg ?_).mpr hx
    simp [hxid]
  · rw [hflat]
    exact no_match_after_eraseP hidnd

/-- C10: cancelling a resting order (well-formed book: duplicate-free
level keys, orders on the correct side at their level's price,
duplicate-free ids) removes exactly that order: the size drops by one;
the other side of the book is untouched; every level at another price is
untouched; the level at the order's price becomes its queue with the
order erased — removed entirely exactly when the order rested there
alone, the others keeping their queue order; every other resting order
stays resting; and no order with the cancelled id remains.  (The C++
`CancelOrder` returns `void`, so it emits no trades.) -/
theorem C10_cancel_removes_exactly (b : OrderBook) (id : OrderId) (o : Order)
    (hf : findOrder b id = some o)
    (hkb : (b.bids.map Prod.fst).Nodup)
    (hka : (b.asks.map Prod.fst).Nodup)
    (hsb : ∀ pl ∈ b.bids, ∀ x ∈ pl.2, x.side = Side.Buy ∧ x.price = pl.1)
    (hsa : ∀ pl ∈ b.asks, ∀ x ∈ pl.2, x.side = Side.Sell ∧ x.price = pl.1)
    (hnd : ((allOrders b).map Order.orderId).Nodup) :
    (b.CancelOrder id).Size + 1 = b.Size ∧
    (o.side = Side.Buy → (b.CancelOrder id).asks = b.asks) ∧
    (o.side = Side.Sell → (b.CancelOrder id).bids = b.bids) ∧
    (∀ q, q ≠ o.price →
      levelAt (b.CancelOrder id).bids q = levelAt b.bids q ∧
      levelAt (b.CancelOrder id).asks q = levelAt b.asks q) ∧
    (o.side = Side.Buy →
      levelAt (b.CancelOrder id).bids o.price
        = eraseOutcome id (levelAt b.bids o.price)) ∧
    (o.side = Side.Sell →
      levelAt (b.CancelOrder id).asks o.price
        = eraseOutcome id (levelAt b.asks o.price)) ∧
    (∀ x ∈ allOrders b, x.orderId ≠ id → x ∈ allOrders (b.CancelOrder id)) ∧
    (∀ x ∈ allOrders (b.CancelOrder id), x.orderId ≠ id) := by
  have hf2 : List.find? (fun x => x.orderId == id) (allOrders b) = some o := hf
  have hoid0 := List.find?_some hf2
  have hoid : (o.orderId == id) = true := hoid0
  have homem : o ∈ allOrders b := List.mem_of_find?_eq_some hf2
  have hndsplit : ((levelOrders b.bids).map Order.orderId).Nodup ∧
      ((levelOrders b.asks).map Order.orderId).Nodup ∧
      List.Disjoint ((levelOrders b.bids).map Order.orderId)
        ((levelOrders b.asks).map Order.orderId) := by
    rw [allOrders, List.map_append] at hnd
    exact List.nodup_append.mp hnd
  rcases List.mem_append.mp homem with hob | hoa
  · -- the order rests on the bid side
    obtain ⟨l, hlmem, holv⟩ := List.mem_flatten.mp hob
    obtain ⟨pl, hpl, rfl⟩ := List.mem_map.mp hlmem
    have hside := hsb pl hpl o holv
    have hmem2 : (o.price, pl.2) ∈ b.bids := by
      rw [hside.2]
      exact hpl
    have hcancel : b.CancelOrder id = ⟨cancelInMap b.bids o.price id, b.asks⟩ := by
      simp only [OrderBook.CancelOrder, hf, hside.1]
    have hfacts := cancel_map_facts hkb hmem2 holv hoid hndsplit.1
    have hlv := cancelInMap_levelAt hkb o.price id
    have hasknot : ∀ x ∈ levelOrders b.asks, x.orderId ≠ id := by
      intro x hx hxid
      refine hndsplit.2.2 (List.mem_map.mpr ⟨o, hob, rfl⟩) ?_
      have ho2 : o.orderId = id := by simpa using hoid
      rw [ho2, ← hxid]
      exact List.mem_map.mpr ⟨x, hx, rfl⟩
    rw [hcancel]
    refine ⟨?_, fun _ => rfl, ?_, ?_, fun _ => hlv.2, ?_, ?_, ?_⟩
    · simp only [OrderBook.Size, allOrders, List.length_append]
      have := hfacts.1
      omega
    · intro hsell
      rw [hside.1] at hsell
      cases hsell
    · intro q hq
      exact ⟨hlv.1 q hq, rfl⟩
    · intro hsell
      rw [hside.1] at hsell
      cases hsell
    · intro x hx hxid
      rcases List.mem_append.mp hx with hx2 | hx2
      · exact List.mem_append.mpr (Or.inl (hfacts.2.1 x hx2 hxid))
      · exact List.mem_append.mpr (Or.inr hx2)
    · intro x hx
      rcases List.mem_append.mp hx with hx2 | hx2
      · exact hfacts.2.2 x hx2
      · exact hasknot x hx2
  · -- the order rests on the ask side
    obtain ⟨l, hlmem, holv⟩ := List.mem_flatten.mp hoa
    obtain ⟨pl, hpl, rfl⟩ := List.mem_map.mp hlmem
    have hside := hsa pl hpl o holv
    have hmem2 : (o.price, pl.2) ∈ b.asks := by
      rw [hside.2]
      exact hpl
    have hcancel : b.CancelOrder id = ⟨b.bids, cancelInMap b.asks o.price id⟩ := by
      simp only [OrderBook.CancelOrder, hf, hside.1]
    have hfacts := cancel_map_facts hka hmem2 holv hoid hndsplit.2.1
    have hlv := cancelInMap_levelAt hka o.price id
    have hbidnot : ∀ x ∈ levelOrders b.bids, x.orderId ≠ id := by
      intro x hx hxid
      refine hndsplit.2.2 (List.mem_map.mpr ⟨x, hx, rfl⟩) ?_
      have ho2 : o.orderId = id := by simpa using hoid
      rw [hxid, ← ho2]
      exact List.mem_map.mpr ⟨o, hoa, rfl⟩
    rw [hcancel]
    refine ⟨?_, ?_, fun _ => rfl, ?_, ?_, fun _ => hlv.2, ?_, ?_⟩
    · simp only [OrderBook.Size, allOrders, List.length_append]
      have := hfacts.1
      omega
    · intro hbuy
      rw [hside.1] at hbuy
      cases hbuy
    · intro q hq
      exact ⟨rfl, hlv.1 q hq⟩
    · intro hbuy
      rw [hside.1] at hbuy
      cases hbuy
    · intro x hx hxid
      rcases List.mem_append.mp hx with hx2 | hx2
      · exact List.mem_append.mpr (Or.inl hx2)
      · exact List.mem_append.mpr (Or.inr (hfacts.2.1 x hx2 hxid))
    · intro x hx
      rcases List.mem_append.mp hx with hx2 | hx2
      · exact hbidnot x hx2
      · exact hfacts.2.2 x hx2

/-!
Concrete instantiations (witnesses) for the theorems with hypotheses.
-/

/-- Earlier GoodTilCancel buy at 100. -/
def c6A : Order := mkOrder OrderType.GoodTilCancel 1 Side.Buy 100 5

/-- Later GoodTilCancel buy at the same price. -/
def c6B : Order := mkOrder OrderType.GoodTilCancel 2 Side.Buy 100 5

/-- Aggressing sell that partially fills the level front. -/
def c6S : Order := mkOrder OrderType.GoodTilCancel 3 Side.Sell 100 3

/-- Book with the two buys queued at 100 and the crossing sell. -/
def c6Book : OrderBook := ⟨[(100, [c6A, c6B])], [(100, [c6S])]⟩

/-- What remains of the front order after the partial fill. -/
def c6A2 : Order := Order.mk OrderType.GoodTilCancel 1 Side.Buy 100 5 2

theorem C6_time_priority_witness :
    ((100 : Price), [c6A] ++ [c6B]) ∈
        insertLevel [((100 : Price), [c6A])] 100 c6B ∧
    ([c6A2, c6B] = c6A2 :: [c6B] ∧ sameCore c6A c6A2 ∧
      c6A2.remainingQuantity ≤ c6A.remainingQuantity) := by
  constructor
  · exact C6_time_priority.1 [((100 : Price), [c6A])] 100 [c6A] c6B
      (by decide) (by decide)
  · exact C6_time_priority.2.1 c6Book 100 c6A [c6B] (by decide) (by decide)
      (by decide) [c6A2, c6B] (by decide) c6A2 (by decide) (by decide)

/-- One resting bid 5@100 against one resting ask 3@100. -/
def c9Book : OrderBook :=
  ⟨[(100, [mkOrder OrderType.GoodTilCancel 1 Side.Buy 100 5])],
   [(100, [mkOrder OrderType.GoodTilCancel 3 Side.Sell 100 3])]⟩

theorem C9_trade_leg_accounting_witness :
    ((Trade.mk (TradeInfo.mk 1 100 3) (TradeInfo.mk 3 100 3)).bidTrade.quantity =
        (Trade.mk (TradeInfo.mk 1 100 3) (TradeInfo.mk 3 100 3)).askTrade.quantity ∧
      legFrom c9Book.bids (Trade.mk (TradeInfo.mk 1 100 3) (TradeInfo.mk 3 100 3)).bidTrade ∧
      legFrom c9Book.asks (Trade.mk (TradeInfo.mk 1 100 3) (TradeInfo.mk 3 100 3)).askTrade) ∧
    legSum 1 (matchLoop 3 c9Book.bids c9Book.asks []).trades
        + remInMap 1 (matchLoop 3 c9Book.bids c9Book.asks []).bids
        + remInMap 1 (matchLoop 3 c9Book.bids c9Book.asks []).asks
      = remInMap 1 c9Book.bids + remInMap 1 c9Book.asks :=
  ⟨C9_trade_leg_accounting.1 c9Book _ (by decide),
   C9_trade_leg_accounting.2.1 3 c9Book.bids c9Book.asks 1⟩

/-- Book with a bid alone at 100, another bid at 105, one ask at 110. -/
def c10Book : OrderBook :=
  ⟨[((100 : Price), [mkOrder OrderType.GoodTilCancel 1 Side.Buy 100 5]),
    ((105 : Price), [mkOrder OrderType.GoodTilCancel 2 Side.Buy 105 4])],
   [((110 : Price), [mkOrder OrderType.GoodTilCancel 3 Side.Sell 110 7])]⟩

theorem C10_cancel_removes_exactly_witness :
    (c10Book.CancelOrder 1).Size + 1 = c10Book.Size ∧
    ∀ x ∈ allOrders (c10Book.CancelOrder 1), x.orderId ≠ 1 :=
  ⟨(C10_cancel_removes_exactly c10Book 1
      (mkOrder OrderType.GoodTilCancel 1 Side.Buy 100 5)
      (by decide) (by decide) (by decide) (by decide) (by decide) (by decide)).1,
   (C10_cancel_removes_exactly c10Book 1
      (mkOrder OrderType.GoodTilCancel 1 Side.Buy 100 5)
      (by decide) (by decide) (by decide) (by decide) (by decide)
      (by decide)).2.2.2.2.2.2.2⟩

end OBook
